import Mathlib

/-!
Verification development for the buildkit core: a shallow embedding of
the solver (vertex evaluation, exec dispatch, status walk), the cache
ref store (blob association, ref release semantics) and the progress
pub/sub layer, together with theorems settling the specified properties.

Machine integers of the source are modelled by Int/Nat (no overflow is
relevant to any property below); digests and ids are modelled by String;
fallible operations return Except or pair their result with an optional
error, mirroring the Go (value, error) convention.  External
collaborators (snapshotter, lease manager, content store, worker) are
abstracted by parameters recording only the facts the embedded code
consults.
-/

/-! ## Operation data model (solver/pb, client/llb)

A mount of an exec op carries an input index referencing a parent output,
a destination path, a read-only flag and an output index, where output
index -1 is the skip sentinel (pb.SkipOutput). -/

structure Mount where
  input : Int
  dest : String
  readonly : Bool
  output : Int
deriving DecidableEq, Repr

/-- The typed operation body of an op record: a source op (identifier and
attributes elided to the identifier, the only field the solver reads) or
an exec op (argv metadata and the ordered mount list). -/
inductive OpBody where
  | source (identifier : String)
  | exec (args : List String) (mounts : List Mount)
deriving DecidableEq, Repr

/-- The static shape of an opVertex (solver/solver.go:73-81): its op (the
oneof body, which may be absent exactly as pb.Op.Op may be nil), its
content digest and its resolved input vertices.  The runtime fields refs
and err are modelled separately by VtxState, and the mutex by the
sequencing of calls. -/
inductive OpVertex where
  | mk (op : Option OpBody) (dgst : String) (inputs : List OpVertex)

def OpVertex.op : OpVertex → Option OpBody
  | .mk o _ _ => o

def OpVertex.dgst : OpVertex → String
  | .mk _ d _ => d

def OpVertex.inputs : OpVertex → List OpVertex
  | .mk _ _ i => i

mutual
def OpVertex.beq : OpVertex → OpVertex → Bool
  | .mk o1 d1 i1, .mk o2 d2 i2 => o1 == o2 && d1 == d2 && OpVertex.beqList i1 i2
def OpVertex.beqList : List OpVertex → List OpVertex → Bool
  | [], [] => true
  | v :: vs, w :: ws => OpVertex.beq v w && OpVertex.beqList vs ws
  | _, _ => false
end

mutual
theorem OpVertex.beq_iff : ∀ a b : OpVertex, OpVertex.beq a b = true ↔ a = b
  | .mk o1 d1 i1, .mk o2 d2 i2 => by
    simp only [OpVertex.beq, Bool.and_eq_true, beq_iff_eq, OpVertex.mk.injEq]
    constructor
    · rintro ⟨⟨h1, h2⟩, h3⟩
      exact ⟨h1, h2, (OpVertex.beqList_iff i1 i2).mp h3⟩
    · rintro ⟨h1, h2, h3⟩
      exact ⟨⟨h1, h2⟩, (OpVertex.beqList_iff i1 i2).mpr h3⟩
theorem OpVertex.beqList_iff : ∀ a b : List OpVertex, OpVertex.beqList a b = true ↔ a = b
  | [], [] => by simp [OpVertex.beqList]
  | [], _ :: _ => by simp [OpVertex.beqList]
  | _ :: _, [] => by simp [OpVertex.beqList]
  | v :: vs, w :: ws => by
    simp only [OpVertex.beqList, Bool.and_eq_true, List.cons.injEq]
    rw [OpVertex.beq_iff, OpVertex.beqList_iff]
end

instance : DecidableEq OpVertex := fun a b =>
  decidable_of_iff _ (OpVertex.beq_iff a b)

/-! ## Vertex evaluator (solver/solver.go) -/

/-- Runtime state of an opVertex: the produced refs (cache.ImmutableRef
handles modelled by numeric ids) and the sticky error. -/
structure VtxState where
  refs : List Nat
  err : Option String
deriving DecidableEq, Repr

inductive SolveRes where
  | ok
  | fail (e : String)
deriving DecidableEq, Repr

/-- opVertex.solve (solver/solver.go:113-168): the region under the
vertex mutex.  A recorded err is returned unchanged; a non-empty refs
slice makes the call return success immediately.  Otherwise the body runs
(progress setup, parallel input solving, start/complete notification and
dispatch to runSourceOp or runExecOp, abstracted into the body argument)
and the deferred handler records a failing result into err.  The Bool of
the result reports whether the body was dispatched. -/
def solve (g : VtxState) (body : VtxState → VtxState × SolveRes) :
    VtxState × SolveRes × Bool :=
  match g.err with
  | some e => (g, .fail e, false)
  | none =>
    if g.refs.length > 0 then (g, .ok, false)
    else
      match body g with
      | (g2, .ok) => (g2, .ok, true)
      | (g2, .fail e) => ({ g2 with err := some e }, .fail e, true)

/-- Effective root selection in Solver.Solve (solver/solver.go:44-46):
whenever the submitted terminal vertex has any inputs at all, its first
input becomes the vertex that is solved. -/
def effectiveRoot (g : OpVertex) : OpVertex :=
  match g.inputs with
  | [] => g
  | i :: _ => i

/-- The root-selection convention as the spec words it: unwrap only a
return vertex, i.e. one with exactly one input and no op of its own;
solve every other terminal vertex as-is.  Stated for comparison with
effectiveRoot, the definition taken from the source. -/
def specEffectiveRoot (g : OpVertex) : OpVertex :=
  match g.op, g.inputs with
  | none, [i] => i
  | _, _ => g

/-- The mounts of an exec op that declare an output (m.Output != -1), in
mount-declaration order (solver/solver.go:199-212): exactly these mounts
make cm.New allocate a mutable ref that is appended to the outputs
slice. -/
def execOutputs (mounts : List Mount) : List Mount :=
  mounts.filter (fun m => m.output ≠ -1)

/-- The commit loop of runExecOp (solver/solver.go:229-237): each output
mutable ref is committed by ReleaseAndCommit in slice order and the
resulting immutable is appended to g.refs; a failing commit stops the
loop, leaving the refs committed so far.  An immutable ref is represented
by the mount whose mutable output it was committed from, which records
its provenance. -/
def commitOutputs (commitOk : Mount → Bool) : List Mount → List Mount × Option String
  | [] => ([], none)
  | o :: rest =>
    if commitOk o then
      let r := commitOutputs commitOk rest
      (o :: r.1, r.2)
    else ([], some "error committing")

/-- opVertex.runExecOp (solver/solver.go:183-239), the refs it produces:
one mutable output is allocated per mount declaring an output, the worker
is invoked, and on worker success the outputs are committed in order.
Returns the final refs of the vertex together with the error, if any. -/
def runExecOp (mounts : List Mount) (workerOk : Bool) (commitOk : Mount → Bool) :
    List Mount × Option String :=
  if workerOk then commitOutputs commitOk (execOutputs mounts)
  else ([], some "worker failed")

/-- Whether a list of committed refs is ordered by the declared output
index of the mount each was committed from, as the claimed commit
ordering would require. -/
def orderedByOutputIndex (refs : List Mount) : Prop :=
  (refs.map Mount.output).Pairwise (· ≤ ·)

instance (refs : List Mount) : Decidable (orderedByOutputIndex refs) := by
  unfold orderedByOutputIndex; infer_instance

/-! ## Job registry status walk (solver/jobs.go) -/

mutual
/-- The recursive send closure of walk (solver/jobs.go:112-132): inputs
are visited first, then the vertex itself is emitted unless its digest is
already in the cache set of emitted digests.  The Go cache map is
modelled by the emission-ordered list of digests; send returns the
digests emitted by this call and the updated cache. -/
def send : OpVertex → List String → List String × List String
  | .mk _ d ins, c =>
    let r1 := sendList ins c
    if d ∈ r1.2 then (r1.1, r1.2) else (r1.1 ++ [d], r1.2 ++ [d])
def sendList : List OpVertex → List String → List String × List String
  | [], c => ([], c)
  | v :: vs, c =>
    let r1 := send v c
    let r2 := sendList vs r1.2
    (r1.1 ++ r2.1, r2.2)
end

/-- walk (solver/jobs.go:112-132): the sequence of vertex digests emitted
to the channel during the initial status walk of job.pipe, starting from
an empty cache. -/
def walk (v : OpVertex) : List String := (send v []).1

mutual
/-- All vertices of the tree rooted at v, the root included. -/
def subtrees : OpVertex → List OpVertex
  | .mk o d ins => .mk o d ins :: subtreesList ins
def subtreesList : List OpVertex → List OpVertex
  | [] => []
  | v :: vs => subtrees v ++ subtreesList vs
end

/-- Content addressing: two vertices of the DAG with the same digest are
the same vertex.  The loader guarantees this by materializing one vertex
instance per digest (solver/jobs.go loadReqursive cache). -/
def Consistent (v : OpVertex) : Prop :=
  ∀ u ∈ subtrees v, ∀ w ∈ subtrees v, u.dgst = w.dgst → u = w

instance (v : OpVertex) : Decidable (Consistent v) := by
  unfold Consistent; infer_instance

/-! ## Cache ref store: blob association (cache/refs.go) -/

/-- Blob metadata of an immutable record as persisted on its
metadata.StorageItem: DiffID, Blob, ChainID and BlobChainID, each the
empty string when unset (the zero value of the keyed store). -/
structure BlobMd where
  diffID : String
  blob : String
  chainID : String
  blobChainID : String
deriving DecidableEq, Repr

/-- The OCI image-spec ChainID of a two-element digest list, as computed
by identity.ChainID([d1, d2]): the digest of the space-joined pair.  The
digest function itself is an external collaborator and is passed in as
h. -/
def ociChainID2 (h : String → String) (d1 d2 : String) : String :=
  h (d1 ++ " " ++ d2)

/-- immutableRef.SetBlob (cache/refs.go:259-308).  The content store is
abstracted by the list of blob digests it knows (ContentStore.Info
errors outside it); finalize and LeaseManager.AddResource are assumed to
succeed, as nothing below depends on their failure.  Mirrors the source:
the content-store check, the idempotence guard on a non-empty ChainID,
the non-addressable-parent error, then the queueing of diffID, blob,
chainID and blobChainID, where the chain ids are combined with the
parent's exactly when a parent exists. -/
def setBlob (h : String → String) (contentStore : List String) (md : BlobMd)
    (parent : Option BlobMd) (diffID blob : String) : Except String BlobMd :=
  if blob ∉ contentStore then .error "blob not found"
  else if md.chainID ≠ "" then .ok md
  else
    match parent with
    | some p =>
      if p.chainID = "" ∨ p.blobChainID = "" then
        .error "failed to set blob for reference with non-addressable parent"
      else
        .ok { md with
          diffID := diffID
          blob := blob
          chainID := ociChainID2 h p.chainID diffID
          blobChainID := ociChainID2 h p.blobChainID (ociChainID2 h blob diffID) }
    | none =>
      .ok { md with
        diffID := diffID
        blob := blob
        chainID := diffID
        blobChainID := ociChainID2 h blob diffID }

/-- The recursive chain-id definition of the spec over the diff-id chain
from the root: ChainID(root) = DiffID, ChainID(n) =
hash(ChainID(n-1) || DiffID(n)). -/
def chainIDOf (h : String → String) : List String → String
  | [] => ""
  | d :: rest => rest.foldl (fun acc x => ociChainID2 h acc x) d

/-- The recursive blob-chain-id definition over (blob, diffID) pairs from
the root: the rolling hash of the hashes of the pairs. -/
def blobChainIDOf (h : String → String) : List (String × String) → String
  | [] => ""
  | p :: rest =>
    rest.foldl (fun acc x => ociChainID2 h acc (ociChainID2 h x.1 x.2))
      (ociChainID2 h p.1 p.2)

/-! ## Cache ref store: ref handles and release (cache/refs.go) -/

/-- A ref handle into a cacheRecord refs set: its identity and its
triggerLastUsed flag (cache/refs.go:224-232). -/
structure RefHandle where
  hid : Nat
  trigger : Bool
deriving DecidableEq, Repr

/-- The state of an immutable cacheRecord that release touches: the live
handles, a count of last-used stamps written to metadata, the
equalMutable sibling (carrying its triggerLastUsed flag) with a flag
recording whether its release was cascaded, and the cached view mount. -/
structure ImmRecord where
  refs : List RefHandle
  lastUsedUpdates : Nat
  equalMutableTrigger : Option Bool
  equalMutableReleased : Bool
  viewMount : Bool
deriving DecidableEq, Repr

/-- cacheRecord.ref (cache/refs.go:88-92): create a handle with the given
triggerLastUsed flag and insert it into the refs set. -/
def recordRef (r : ImmRecord) (fresh : Nat) (triggerLastUsed : Bool) :
    RefHandle × ImmRecord :=
  let h : RefHandle := { hid := fresh, trigger := triggerLastUsed }
  (h, { r with refs := h :: r.refs })

/-- immutableRef.Clone (cache/refs.go:234-239): an additional handle to
the same record, created with triggerLastUsed false. -/
def cloneRef (r : ImmRecord) (fresh : Nat) : RefHandle × ImmRecord :=
  recordRef r fresh false

/-- immutableRef.release (cache/refs.go:336-362): remove the handle from
the refs set; if this handle triggers last-used and no remaining handle
does (updateLastUsedNow), stamp last-used and mark the equalMutable
sibling as triggering; if no handle remains, drop the view mount and
cascade the release to the equalMutable sibling. -/
def releaseImm (r : ImmRecord) (h : RefHandle) : ImmRecord :=
  let refs2 := r.refs.erase h
  let r1 := { r with refs := refs2 }
  let r2 :=
    if h.trigger && refs2.all (fun x => !x.trigger) then
      { r1 with
        lastUsedUpdates := r1.lastUsedUpdates + 1
        equalMutableTrigger := r1.equalMutableTrigger.map (fun _ => true) }
    else r1
  if refs2.isEmpty then
    let r3 := { r2 with viewMount := false }
    match r3.equalMutableTrigger with
    | some _ => { r3 with equalMutableReleased := true }
    | none => r3
  else r2

/-- The state mutableRef.release (cache/refs.go:500-528) operates on: the
mutable record and cache-manager facts.  records is the live map (by
record id), leases the set of snapshotter leases, parentHolds the number
of holds the record chain has on the parent ref; mutLastUsedUpdates
counts last-used stamps on the mutable record.  equalImmutable carries
the sibling record id and its cache policy. -/
structure MutRelState where
  records : List String
  leases : List String
  parentHolds : Nat
  hasParent : Bool
  mutId : String
  mutRetain : Bool
  mutTrigger : Bool
  mutLastUsedUpdates : Nat
  equalImmutable : Option (String × Bool)
deriving DecidableEq, Repr

/-- cacheRecord.remove (cache/refs.go:202-218) applied to record id
within this state: drop the id from the live map, release the hold on the
parent, and delete the lease when removeSnapshot is set. -/
def removeRecord (s : MutRelState) (id : String) (removeSnapshot : Bool) :
    MutRelState :=
  let s1 := { s with records := s.records.erase id }
  let s2 := if s1.hasParent then { s1 with parentHolds := s1.parentHolds - 1 } else s1
  if removeSnapshot then { s2 with leases := s2.leases.erase id } else s2

/-- mutableRef.release (cache/refs.go:500-528): with a non-retain cache
policy, a retain-policy equalImmutable sibling only gets a last-used
stamp (when the handle triggers one); a non-retain sibling is removed
without touching its snapshot, then the parent hold is dropped and the
mutable record itself is removed together with its lease.  With a retain
policy only the last-used stamp is written. -/
def mutableRelease (s : MutRelState) : MutRelState :=
  if !s.mutRetain then
    match s.equalImmutable with
    | some (eqId, eqRetain) =>
      if eqRetain then
        if s.mutTrigger then
          { s with mutLastUsedUpdates := s.mutLastUsedUpdates + 1, mutTrigger := false }
        else s
      else
        let s1 := removeRecord s eqId false
        let s2 := if s1.hasParent then { s1 with parentHolds := s1.parentHolds - 1 } else s1
        removeRecord s2 s.mutId true
    | none =>
      let s2 := if s.hasParent then { s with parentHolds := s.parentHolds - 1 } else s
      removeRecord s2 s.mutId true
  else
    if s.mutTrigger then
      { s with mutLastUsedUpdates := s.mutLastUsedUpdates + 1, mutTrigger := false }
    else s

/-! ## Progress bus (util/progress/progress.go) -/

/-- A progress event (util/progress/progress.go:41-53).  Timestamps are
modelled by Nat with 0 as the zero value time.Time.IsZero reports. -/
structure Progress where
  id : String
  message : String
  action : String
  current : Int
  total : Int
  timestamp : Nat
  done : Bool
deriving DecidableEq, Repr

/-- The state of a progressWriter
(util/progress/progress.go:161-166): its dotted id, the atomically
stored latest event (nil before the first write) and the done flag. -/
structure WriterState where
  id : String
  lastP : Option Progress
  done : Bool
deriving DecidableEq, Repr

/-- progressWriter.Write (util/progress/progress.go:168-182): error once
done; otherwise stamp the event with the writer id and, when its
timestamp is zero, the current time, store it as the latest event, and
set done when the event is terminal. -/
def writerWrite (pw : WriterState) (p : Progress) (now : Nat) :
    Except String WriterState :=
  if pw.done then .error ("writing to closed progresswriter " ++ pw.id)
  else
    let p1 := { p with id := pw.id }
    let p2 := if p1.timestamp = 0 then { p1 with timestamp := now } else p1
    .ok { pw with lastP := some p2, done := p2.done }

/-- progressWriter.Done (util/progress/progress.go:184-197): when the
latest event is already terminal, do nothing; otherwise republish the
latest event with done set (through Write).  Loading the latest event of
a writer that never wrote panics on the nil type assertion, modelled as
an error. -/
def writerDone (pw : WriterState) (now : Nat) : Except String WriterState :=
  match pw.lastP with
  | some lastP =>
    if lastP.done then .ok pw
    else writerWrite pw { lastP with done := true } now
  | none => .error "nil progress dereference"

/-- A streamHandle of a progressReader
(util/progress/progress.go:62-65): the writer it tracks (by writer id)
and the last event this reader saw from it. -/
structure StreamHandle where
  pwId : String
  lastP : Option Progress
deriving DecidableEq, Repr

/-- The state of a progressReader the append and read paths touch: the
context-closed flag and the handle slice. -/
structure ReaderState where
  closed : Bool
  handles : List StreamHandle
deriving DecidableEq, Repr

/-- progressReader.append (util/progress/progress.go:121-131): when the
reader context is already done the writer handle is not added; otherwise
it is appended with no last-seen event. -/
def readerAppend (pr : ReaderState) (pwId : String) : ReaderState :=
  if pr.closed then pr
  else { pr with handles := pr.handles ++ [{ pwId := pwId, lastP := none }] }

/-- streamHandle.next (util/progress/progress.go:67-77): emit the latest
stored event of the tracked writer when it differs from the one last
seen.  latest gives each writer id its atomically stored latest event. -/
def handleNext (latest : String → Option Progress) (sh : StreamHandle) :
    Option (Progress × StreamHandle) :=
  match latest sh.pwId with
  | some lastp =>
    if some lastp ≠ sh.lastP then some (lastp, { sh with lastP := some lastp })
    else none
  | none => none

/-- The handle scan of progressReader.Read
(util/progress/progress.go:98-107): walk the handle slice in order and
return the first fresh event, tagged with the id of the writer handle it
came from, together with the updated handle slice. -/
def readScan (latest : String → Option Progress) :
    List StreamHandle → Option ((String × Progress) × List StreamHandle)
  | [] => none
  | sh :: rest =>
    match handleNext latest sh with
    | some r => some ((sh.pwId, r.1), r.2 :: rest)
    | none =>
      match readScan latest rest with
      | some r2 => some (r2.1, sh :: r2.2)
      | none => none

/-! ## Theorems: vertex evaluator -/

/-- Claim C1: once a vertex has a recorded error or a non-empty refs
slice it is terminal: solve returns immediately without dispatching the
source or exec path, returning the recorded error unchanged when err is
set and success when refs is non-empty. -/
theorem c1_solve_terminal (g : VtxState) (body : VtxState → VtxState × SolveRes) :
    (∀ e, g.err = some e → solve g body = (g, .fail e, false)) ∧
    (g.err = none → g.refs ≠ [] → solve g body = (g, .ok, false)) := by
  constructor
  · intro e he
    simp [solve, he]
  · intro he hr
    simp [solve, he, List.length_pos.mpr hr]

/-- Witness for C1 at concrete terminal vertex states: a recorded error
is returned unchanged, a populated refs slice short-circuits to
success, and neither dispatches. -/
theorem c1_solve_terminal_witness :
    solve { refs := [], err := some "boom" } (fun g => (g, SolveRes.ok)) =
      ({ refs := [], err := some "boom" }, SolveRes.fail "boom", false) ∧
    solve { refs := [7], err := none } (fun g => (g, SolveRes.fail "x")) =
      ({ refs := [7], err := none }, SolveRes.ok, false) :=
  ⟨(c1_solve_terminal _ _).1 "boom" rfl,
   (c1_solve_terminal _ _).2 rfl (by decide)⟩

/-- Counterexample to claim C2 as stated: with two mounts declaring
output indices 1 and then 0, a successful exec commits and appends the
refs in mount-declaration order, so the resulting refs are not in
output-index order. -/
theorem c2_counterexample :
    ¬ orderedByOutputIndex
      (runExecOp
        [{ input := 0, dest := "/a", readonly := false, output := 1 },
         { input := 0, dest := "/b", readonly := false, output := 0 }]
        true (fun _ => true)).1 := by
  decide

theorem commitOutputs_all_ok (commitOk : Mount → Bool) (l : List Mount)
    (h : ∀ m ∈ l, commitOk m = true) :
    commitOutputs commitOk l = (l, none) := by
  induction l with
  | nil => rfl
  | cons o rest ih =>
    simp [commitOutputs, h o (List.mem_cons_self o rest),
      ih fun m hm => h m (List.mem_cons_of_mem o hm)]

/-- Claim C2 (amended): for every exec vertex whose worker invocation and
output commits succeed, the refs of the vertex are exactly one committed
immutable per mount with output index different from the skip sentinel
-1, committed sequentially and appended in mount-declaration order (the
order the outputs slice was built in), not output-index order; in
particular the length of refs equals the number of such mounts. -/
theorem c2_exec_refs (mounts : List Mount) (commitOk : Mount → Bool)
    (h : ∀ m ∈ execOutputs mounts, commitOk m = true) :
    runExecOp mounts true commitOk = (execOutputs mounts, none) ∧
    (runExecOp mounts true commitOk).1.length = (execOutputs mounts).length := by
  have h2 := commitOutputs_all_ok commitOk (execOutputs mounts) h
  constructor
  · simp [runExecOp, h2]
  · simp [runExecOp, h2]

/-- Witness for C2 (amended) at a concrete mount list with one skipped
and one produced output. -/
theorem c2_exec_refs_witness :
    runExecOp
      [{ input := 0, dest := "/in", readonly := true, output := -1 },
       { input := 0, dest := "/out", readonly := false, output := 0 }]
      true (fun _ => true) =
      ([{ input := 0, dest := "/out", readonly := false, output := 0 }], none) :=
  (c2_exec_refs _ _ (by decide)).1

/-- Counterexample to claim C3 as stated: a terminal vertex with its own
exec operation and two inputs is still unwrapped to its first input by
Solver.Solve, although the claim says such a vertex is solved as-is. -/
theorem c3_counterexample :
    effectiveRoot (.mk (some (.exec ["sh"] [])) "d"
        [.mk (some (.source "docker-image://x")) "a" [],
         .mk (some (.source "docker-image://y")) "b" []]) ≠
      .mk (some (.exec ["sh"] [])) "d"
        [.mk (some (.source "docker-image://x")) "a" [],
         .mk (some (.source "docker-image://y")) "b" []] := by
  decide

/-- Claim C3 (amended): Solve unwraps the submitted terminal vertex
whenever it has at least one input, making the first input the effective
root regardless of the terminal op or of its input count; only a
terminal vertex with no inputs is solved as-is. -/
theorem c3_effective_root (g : OpVertex) :
    (∀ i rest, g.inputs = i :: rest → effectiveRoot g = i) ∧
    (g.inputs = [] → effectiveRoot g = g) := by
  obtain ⟨o, d, ins⟩ := g
  constructor
  · rintro i rest h
    simp only [OpVertex.inputs] at h
    subst h
    rfl
  · intro h
    simp only [OpVertex.inputs] at h
    subst h
    rfl

/-- Witness for C3 (amended): a terminal exec vertex with one input is
unwrapped to that input. -/
theorem c3_effective_root_witness :
    effectiveRoot (.mk (some (.exec ["sh"] [])) "d"
        [.mk (some (.source "docker-image://x")) "a" []]) =
      .mk (some (.source "docker-image://x")) "a" [] :=
  (c3_effective_root _).1 _ [] rfl

/-! ## Theorems: blob association -/

theorem chainIDOf_append (h : String → String) (d0 : String) (ds : List String)
    (d : String) :
    chainIDOf h ((d0 :: ds) ++ [d]) = ociChainID2 h (chainIDOf h (d0 :: ds)) d := by
  simp [chainIDOf, List.foldl_append]

theorem blobChainIDOf_append (h : String → String) (p0 : String × String)
    (ps : List (String × String)) (q : String × String) :
    blobChainIDOf h ((p0 :: ps) ++ [q]) =
      ociChainID2 h (blobChainIDOf h (p0 :: ps)) (ociChainID2 h q.1 q.2) := by
  simp [blobChainIDOf, List.foldl_append]

/-- Claim C4: a successful SetBlob on a record with no chain id yet
derives the chain ids exactly as the recursive definition does: with no
parent the ChainID is the diffID and the BlobChainID the hash of the
(blob, diffID) pair; with a parent they are the rolling hashes over the
parent values, so a parent whose stored ids equal the recursive
definition over its chain yields a record equal, bit for bit, to the
recursive definition over the chain extended by this diffID and (blob,
diffID) pair. -/
theorem c4_setblob_chain (h : String → String) (cs : List String) (md md2 : BlobMd)
    (parent : Option BlobMd) (diffID blob : String)
    (hnew : md.chainID = "")
    (hok : setBlob h cs md parent diffID blob = .ok md2) :
    (parent = none →
      md2.chainID = diffID ∧ md2.blobChainID = ociChainID2 h blob diffID) ∧
    (∀ p, parent = some p →
      md2.chainID = ociChainID2 h p.chainID diffID ∧
      md2.blobChainID = ociChainID2 h p.blobChainID (ociChainID2 h blob diffID)) ∧
    (∀ p d0 ds p0 ps, parent = some p →
      p.chainID = chainIDOf h (d0 :: ds) →
      p.blobChainID = blobChainIDOf h (p0 :: ps) →
      md2.chainID = chainIDOf h ((d0 :: ds) ++ [diffID]) ∧
      md2.blobChainID = blobChainIDOf h ((p0 :: ps) ++ [(blob, diffID)])) := by
  by_cases hcs : blob ∈ cs
  · refine ⟨?_, ?_, ?_⟩
    · rintro rfl
      simp only [setBlob, hcs, not_true_eq_false, if_false, hnew, ne_eq,
        not_false_eq_true, if_true, reduceIte] at hok
      cases hok
      exact ⟨rfl, rfl⟩
    · rintro p rfl
      simp only [setBlob, hcs, hnew] at hok
      by_cases hp : p.chainID = "" ∨ p.blobChainID = ""
      · simp [hp] at hok
      · simp only [hp, if_false, reduceIte] at hok
        cases hok
        exact ⟨rfl, rfl⟩
    · rintro p d0 ds p0 ps rfl hpc hpb
      simp only [setBlob, hcs, hnew] at hok
      by_cases hp : p.chainID = "" ∨ p.blobChainID = ""
      · simp [hp] at hok
      · simp only [hp, if_false, reduceIte] at hok
        cases hok
        constructor
        · rw [chainIDOf_append, ← hpc]
        · rw [blobChainIDOf_append, ← hpb]
  · simp [setBlob, hcs] at hok

/-- Witness for C4: extending a one-layer parent chain, the chain ids
computed by SetBlob coincide bit for bit with the recursive definitions
over the two-layer chain, for a concrete hash function. -/
theorem c4_setblob_chain_witness :
    ({ diffID := "d1", blob := "b1", chainID := "H(d0 d1)",
       blobChainID := "H(H(b0 d0) H(b1 d1))" } : BlobMd).chainID =
        chainIDOf (fun s => "H(" ++ s ++ ")") (["d0"] ++ ["d1"]) ∧
    ({ diffID := "d1", blob := "b1", chainID := "H(d0 d1)",
       blobChainID := "H(H(b0 d0) H(b1 d1))" } : BlobMd).blobChainID =
        blobChainIDOf (fun s => "H(" ++ s ++ ")")
          ([("b0", "d0")] ++ [("b1", "d1")]) :=
  (c4_setblob_chain (fun s => "H(" ++ s ++ ")") ["b1"]
      { diffID := "", blob := "", chainID := "", blobChainID := "" }
      { diffID := "d1", blob := "b1", chainID := "H(d0 d1)",
        blobChainID := "H(H(b0 d0) H(b1 d1))" }
      (some { diffID := "d0", blob := "b0", chainID := "d0",
              blobChainID := "H(b0 d0)" })
      "d1" "b1" rfl rfl).2.2
    _ "d0" [] ("b0", "d0") [] rfl rfl rfl

/-- Claim C5: SetBlob is idempotent and guards the parent chain: on a
record whose ChainID is already non-empty (and whose blob the content
store knows) it is a no-op returning the record unchanged, and on a
record still lacking a ChainID whose parent exists but lacks a ChainID
or a BlobChainID it fails with an error. -/
theorem c5_setblob_idempotent (h : String → String) (cs : List String)
    (md : BlobMd) (parent : Option BlobMd) (diffID blob : String) :
    (md.chainID ≠ "" → blob ∈ cs →
      setBlob h cs md parent diffID blob = .ok md) ∧
    (∀ p, md.chainID = "" → blob ∈ cs → parent = some p →
      (p.chainID = "" ∨ p.blobChainID = "") →
      setBlob h cs md parent diffID blob =
        .error "failed to set blob for reference with non-addressable parent") := by
  constructor
  · intro hne hcs
    simp [setBlob, hcs, hne]
  · rintro p hempty hcs rfl hp
    simp [setBlob, hcs, hempty, hp]

/-- Witness for C5: a record with a chain id already set is returned
unchanged, and a record with a chain-id-less parent makes SetBlob fail,
at concrete inputs. -/
theorem c5_setblob_idempotent_witness :
    setBlob (fun s => s) ["b"]
        { diffID := "d0", blob := "b0", chainID := "d0", blobChainID := "x" }
        none "d" "b" =
      .ok { diffID := "d0", blob := "b0", chainID := "d0", blobChainID := "x" } ∧
    setBlob (fun s => s) ["b"]
        { diffID := "", blob := "", chainID := "", blobChainID := "" }
        (some { diffID := "", blob := "", chainID := "", blobChainID := "" })
        "d" "b" =
      .error "failed to set blob for reference with non-addressable parent" :=
  ⟨(c5_setblob_idempotent _ _ _ _ _ _).1 (by decide) (by decide),
   (c5_setblob_idempotent _ _ _ _ _ _).2 _ rfl (by decide) rfl (Or.inl rfl)⟩

/-! ## Theorems: ref release semantics -/

/-- Claim C7: Clone produces a handle whose triggerLastUsed flag is
unset, and releasing any such handle never stamps last-used, while
releasing an ordinary handle obtained with the trigger flag set stamps
last-used exactly when no remaining handle still carries the flag. -/
theorem c7_clone_lastused (r : ImmRecord) (fresh : Nat) (h : RefHandle) :
    (cloneRef r fresh).1.trigger = false ∧
    (h.trigger = false →
      (releaseImm r h).lastUsedUpdates = r.lastUsedUpdates) ∧
    (h.trigger = true →
      ((r.refs.erase h).all fun x => !x.trigger) = true →
      (releaseImm r h).lastUsedUpdates = r.lastUsedUpdates + 1) := by
  refine ⟨rfl, ?_, ?_⟩
  · intro ht
    simp only [releaseImm, ht, Bool.false_and, Bool.false_eq_true, if_false]
    by_cases he : (r.refs.erase h).isEmpty
    · simp only [he, if_true, reduceIte]
      cases r.equalMutableTrigger <;> rfl
    · simp [he]
  · intro ht hall
    simp only [releaseImm, ht, hall, Bool.and_self, if_true, reduceIte]
    by_cases he : (r.refs.erase h).isEmpty
    · simp only [he, if_true, reduceIte]
      cases r.equalMutableTrigger <;> rfl
    · simp [he]

/-- Witness for C7: on a record with one triggering and one
non-triggering handle, releasing the non-triggering clone handle leaves
the last-used count alone, and releasing the triggering handle from a
record whose remaining handles do not trigger bumps it. -/
theorem c7_clone_lastused_witness :
    (releaseImm
        { refs := [{ hid := 1, trigger := false }, { hid := 2, trigger := true }],
          lastUsedUpdates := 0, equalMutableTrigger := none,
          equalMutableReleased := false, viewMount := false }
        { hid := 1, trigger := false }).lastUsedUpdates = 0 ∧
    (releaseImm
        { refs := [{ hid := 1, trigger := false }, { hid := 2, trigger := true }],
          lastUsedUpdates := 0, equalMutableTrigger := none,
          equalMutableReleased := false, viewMount := false }
        { hid := 2, trigger := true }).lastUsedUpdates = 0 + 1 :=
  ⟨(c7_clone_lastused _ 9 _).2.1 rfl,
   (c7_clone_lastused _ 9 _).2.2 rfl (by decide)⟩

/-- Claim C9: releasing a non-retain mutable whose equal-immutable
sibling has retain policy deletes nothing: the live map, the leases and
the parent holds are untouched and at most the last-used timestamp is
stamped; and with a retain policy on the mutable itself nothing is
deleted either, so deletion on mutable release happens only when neither
the mutable nor its equal-immutable has retain policy. -/
theorem c9_mutable_release (s : MutRelState) :
    (∀ eqId, s.mutRetain = false → s.equalImmutable = some (eqId, true) →
      (mutableRelease s).records = s.records ∧
      (mutableRelease s).leases = s.leases ∧
      (mutableRelease s).parentHolds = s.parentHolds ∧
      (mutableRelease s).mutLastUsedUpdates =
        s.mutLastUsedUpdates + (if s.mutTrigger then 1 else 0)) ∧
    (s.mutRetain = true →
      (mutableRelease s).records = s.records ∧
      (mutableRelease s).leases = s.leases ∧
      (mutableRelease s).parentHolds = s.parentHolds) := by
  constructor
  · rintro eqId hret heq
    simp only [mutableRelease, hret, Bool.not_false, if_true, heq, reduceIte]
    cases ht : s.mutTrigger <;> simp
  · intro hret
    simp only [mutableRelease, hret, Bool.not_true, Bool.false_eq_true, if_false,
      reduceIte]
    cases ht : s.mutTrigger <;> simp [ht]

/-- Witness for C9: at a concrete state with a retain-policy
equal-immutable sibling, release keeps the live map, the leases and the
parent hold, stamping last-used once; with a retain-policy mutable the
live map, leases and parent hold are kept too. -/
theorem c9_mutable_release_witness :
    ((mutableRelease
        { records := ["m", "i"], leases := ["m"], parentHolds := 1,
          hasParent := true, mutId := "m", mutRetain := false,
          mutTrigger := true, mutLastUsedUpdates := 0,
          equalImmutable := some ("i", true) }).records = ["m", "i"] ∧
      (mutableRelease
        { records := ["m", "i"], leases := ["m"], parentHolds := 1,
          hasParent := true, mutId := "m", mutRetain := false,
          mutTrigger := true, mutLastUsedUpdates := 0,
          equalImmutable := some ("i", true) }).leases = ["m"] ∧
      (mutableRelease
        { records := ["m", "i"], leases := ["m"], parentHolds := 1,
          hasParent := true, mutId := "m", mutRetain := false,
          mutTrigger := true, mutLastUsedUpdates := 0,
          equalImmutable := some ("i", true) }).parentHolds = 1 ∧
      (mutableRelease
        { records := ["m", "i"], leases := ["m"], parentHolds := 1,
          hasParent := true, mutId := "m", mutRetain := false,
          mutTrigger := true, mutLastUsedUpdates := 0,
          equalImmutable := some ("i", true) }).mutLastUsedUpdates =
        0 + (if true then 1 else 0)) ∧
    (mutableRelease
        { records := ["m"], leases := ["m"], parentHolds := 1,
          hasParent := true, mutId := "m", mutRetain := true,
          mutTrigger := false, mutLastUsedUpdates := 0,
          equalImmutable := none }).records = ["m"] :=
  ⟨(c9_mutable_release _).1 "i" rfl rfl,
   ((c9_mutable_release _).2 rfl).1⟩

/-! ## Theorems: progress bus -/

/-- Claim C8: a Done terminal event on a writer with a pending last event
sets the done flag and republishes that event with done true; every
subsequent Write on the writer returns an error instead of publishing. -/
theorem c8_writer_done (pw : WriterState) (lastE : Progress) (now : Nat) :
    (pw.done = false → pw.lastP = some lastE → lastE.done = false →
      lastE.id = pw.id → lastE.timestamp ≠ 0 →
      writerDone pw now =
        .ok { pw with lastP := some { lastE with done := true }, done := true }) ∧
    (pw.done = true → ∀ q now2,
      writerWrite pw q now2 =
        .error ("writing to closed progresswriter " ++ pw.id)) := by
  constructor
  · intro hdone hlast hld hid hts
    simp only [writerDone, hlast, hld, Bool.false_eq_true, if_false,
      writerWrite, hdone, reduceIte]
    have h1 : ({ lastE with done := true, id := pw.id } : Progress) =
        { lastE with done := true } := by
      rw [← hid]
    simp [h1, hts]
  · intro hdone q now2
    simp [writerWrite, hdone]

/-- Witness for C8: a concrete writer with a pending event is closed by
Done, republishing the event with done set, and a later Write on the
closed writer errors. -/
theorem c8_writer_done_witness :
    writerDone
        { id := "w",
          lastP := some
            { id := "w", message := "m", action := "",
              current := 0, total := 0, timestamp := 5, done := false },
          done := false } 9 =
      .ok
        { id := "w",
          lastP := some
            { id := "w", message := "m", action := "",
              current := 0, total := 0, timestamp := 5, done := true },
          done := true } ∧
    writerWrite
        { id := "w",
          lastP := some
            { id := "w", message := "m", action := "",
              current := 0, total := 0, timestamp := 5, done := true },
          done := true }
        { id := "", message := "late", action := "", current := 0, total := 0,
          timestamp := 0, done := false } 11 =
      .error "writing to closed progresswriter w" :=
  ⟨(c8_writer_done _ _ 9).1 rfl rfl rfl rfl (by decide),
   (c8_writer_done _
      { id := "w", message := "m", action := "", current := 0,
        total := 0, timestamp := 5, done := true } 9).2 rfl _ 11⟩

theorem readScan_not_tracked (latest : String → Option Progress) (w : String) :
    ∀ hs : List StreamHandle, (∀ sh ∈ hs, sh.pwId ≠ w) →
      ∀ r, readScan latest hs = some r → r.1.1 ≠ w := by
  intro hs
  induction hs with
  | nil => intro _ r hr; simp [readScan] at hr
  | cons sh rest ih =>
    intro hno r hr
    simp only [readScan] at hr
    cases hn : handleNext latest sh with
    | some q =>
      rw [hn] at hr
      simp only [Option.some.injEq] at hr
      rw [← hr]
      exact hno sh (List.mem_cons_self sh rest)
    | none =>
      rw [hn] at hr
      cases hscan : readScan latest rest with
      | some r2 =>
        rw [hscan] at hr
        simp only [Option.some.injEq] at hr
        rw [← hr]
        exact ih (fun sh2 h2 => hno sh2 (List.mem_cons_of_mem sh h2)) r2 hscan
      | none => rw [hscan] at hr; cases hr

/-- Claim C10: appending a writer to a reader whose context is already
done is a no-op: the handle slice is unchanged, so the scan of the read
loop, which only emits events of handles in the slice, never observes an
event of that writer. -/
theorem c10_append_closed (pr : ReaderState) (w : String)
    (latest : String → Option Progress) :
    (pr.closed = true → readerAppend pr w = pr) ∧
    (pr.closed = true → (∀ sh ∈ pr.handles, sh.pwId ≠ w) →
      ∀ r, readScan latest (readerAppend pr w).handles = some r → r.1.1 ≠ w) := by
  constructor
  · intro hc; simp [readerAppend, hc]
  · intro hc hno r hr
    rw [show readerAppend pr w = pr by simp [readerAppend, hc]] at hr
    exact readScan_not_tracked latest w pr.handles hno r hr

/-- Witness for C10: a closed reader with one tracked writer ignores the
append of a second writer, and the scan emits only events of the tracked
writer. -/
theorem c10_append_closed_witness :
    readerAppend { closed := true, handles := [{ pwId := "a", lastP := none }] }
        "b" =
      { closed := true, handles := [{ pwId := "a", lastP := none }] } ∧
    (("a",
      ({ id := "a", message := "", action := "", current := 0, total := 0,
         timestamp := 3, done := false } : Progress)),
      [({ pwId := "a",
          lastP := some
            { id := "a", message := "", action := "",
              current := 0, total := 0, timestamp := 3, done := false } } :
        StreamHandle)]).1.1 ≠ "b" :=
  ⟨(c10_append_closed
      { closed := true, handles := [{ pwId := "a", lastP := none }] }
      "b" (fun _ => none)).1 rfl,
   (c10_append_closed
      { closed := true, handles := [{ pwId := "a", lastP := none }] }
      "b"
      (fun _ =>
        some
          { id := "a", message := "", action := "", current := 0,
            total := 0, timestamp := 3, done := false })).2 rfl
      (by decide) _ rfl⟩

/-! ## Theorems: status walk -/

mutual
theorem send_cache_eq : ∀ (v : OpVertex) (c : List String),
    (send v c).2 = c ++ (send v c).1
  | .mk o d ins, c => by
    have h := sendList_cache_eq ins c
    by_cases hd : d ∈ (sendList ins c).2
    · have hs : send (.mk o d ins) c = ((sendList ins c).1, (sendList ins c).2) := by
        simp [send, hd]
      rw [hs]
      exact h
    · have hs : send (.mk o d ins) c =
          ((sendList ins c).1 ++ [d], (sendList ins c).2 ++ [d]) := by
        simp [send, hd]
      rw [hs]
      dsimp only
      rw [h, List.append_assoc]
theorem sendList_cache_eq : ∀ (vs : List OpVertex) (c : List String),
    (sendList vs c).2 = c ++ (sendList vs c).1
  | [], c => by simp [sendList]
  | v :: vs, c => by
    have h1 := send_cache_eq v c
    have h2 := sendList_cache_eq vs (send v c).2
    have hs : sendList (v :: vs) c =
        ((send v c).1 ++ (sendList vs (send v c).2).1,
          (sendList vs (send v c).2).2) := by
      simp [sendList]
    rw [hs]
    dsimp only
    rw [h2, h1, List.append_assoc]
end

mutual
theorem send_cache_nodup : ∀ (v : OpVertex) (c : List String),
    c.Nodup → (send v c).2.Nodup
  | .mk o d ins, c, hc => by
    have h1 := sendList_cache_nodup ins c hc
    by_cases hd : d ∈ (sendList ins c).2
    · simpa [send, hd] using h1
    · have : (send (.mk o d ins) c).2 = (sendList ins c).2 ++ [d] := by
        simp [send, hd]
      rw [this]
      refine List.Nodup.append h1 (List.nodup_singleton d) ?_
      intro x hx hmem
      rw [List.mem_singleton] at hmem
      subst hmem
      exact hd hx
theorem sendList_cache_nodup : ∀ (vs : List OpVertex) (c : List String),
    c.Nodup → (sendList vs c).2.Nodup
  | [], c, hc => by simpa [sendList] using hc
  | v :: vs, c, hc => by
    have h1 := send_cache_nodup v c hc
    have h2 := sendList_cache_nodup vs (send v c).2 h1
    simpa [sendList] using h2
end

theorem send_self_mem (v : OpVertex) (c : List String) :
    v.dgst ∈ (send v c).2 := by
  obtain ⟨o, d, ins⟩ := v
  by_cases hd : d ∈ (sendList ins c).2
  · simp [send, hd, OpVertex.dgst]
  · simp [send, hd, OpVertex.dgst]

theorem sendList_mem_cache (vs : List OpVertex) (c : List String) :
    ∀ w ∈ vs, w.dgst ∈ (sendList vs c).2 := by
  induction vs generalizing c with
  | nil => simp
  | cons v vs ih =>
    intro w hw
    have hsl : (sendList (v :: vs) c).2 = (sendList vs (send v c).2).2 := by
      simp [sendList]
    rw [hsl]
    rcases List.mem_cons.mp hw with rfl | hw2
    · rw [sendList_cache_eq]
      exact List.mem_append_left _ (send_self_mem w c)
    · exact ih (send v c).2 w hw2

theorem self_mem_subtrees : ∀ v : OpVertex, v ∈ subtrees v
  | .mk o d ins => by simp [subtrees]

theorem mem_subtreesList_of_mem (vs : List OpVertex) :
    ∀ v ∈ vs, v ∈ subtreesList vs := by
  induction vs with
  | nil => simp
  | cons a t ih =>
    intro v hv
    simp only [subtreesList, List.mem_append]
    rcases List.mem_cons.mp hv with rfl | h
    · left; exact self_mem_subtrees v
    · right; exact ih v h

mutual
theorem subtrees_trans : ∀ (v w u : OpVertex),
    w ∈ subtrees v → u ∈ subtrees w → u ∈ subtrees v
  | .mk o d ins, w, u, hw, hu => by
    simp only [subtrees, List.mem_cons] at hw ⊢
    rcases hw with rfl | hw2
    · simpa [subtrees] using hu
    · right; exact subtreesList_trans ins w u hw2 hu
theorem subtreesList_trans : ∀ (vs : List OpVertex) (w u : OpVertex),
    w ∈ subtreesList vs → u ∈ subtrees w → u ∈ subtreesList vs
  | v :: vs, w, u, hw, hu => by
    simp only [subtreesList, List.mem_append] at hw ⊢
    rcases hw with h1 | h2
    · left; exact subtrees_trans v w u h1 hu
    · right; exact subtreesList_trans vs w u h2 hu
  | [], w, u, hw, _ => by simp [subtreesList] at hw
end

theorem inputs_mem_subtrees (v : OpVertex) : ∀ w ∈ v.inputs, w ∈ subtrees v := by
  obtain ⟨o, d, ins⟩ := v
  intro w hw
  simp only [OpVertex.inputs] at hw
  simp only [subtrees, List.mem_cons]
  right
  exact mem_subtreesList_of_mem ins w hw

mutual
theorem send_covers : ∀ (v : OpVertex) (c : List String),
    ∀ u ∈ subtrees v, u.dgst ∈ (send v c).2
  | .mk o d ins, c, u, hu => by
    simp only [subtrees, List.mem_cons] at hu
    rcases hu with rfl | hu2
    · exact send_self_mem _ c
    · have h := sendList_covers ins c u hu2
      by_cases hd : d ∈ (sendList ins c).2
      · simpa [send, hd] using h
      · have hs : (send (.mk o d ins) c).2 = (sendList ins c).2 ++ [d] := by
          simp [send, hd]
        rw [hs]
        exact List.mem_append_left _ h
theorem sendList_covers : ∀ (vs : List OpVertex) (c : List String),
    ∀ u ∈ subtreesList vs, u.dgst ∈ (sendList vs c).2
  | v :: vs, c, u, hu => by
    simp only [subtreesList, List.mem_append] at hu
    have hs : (sendList (v :: vs) c).2 = (sendList vs (send v c).2).2 := by
      simp [sendList]
    rw [hs]
    rcases hu with h1 | h2
    · have h := send_covers v c u h1
      rw [sendList_cache_eq]
      exact List.mem_append_left _ h
    · exact sendList_covers vs (send v c).2 u h2
  | [], c, u, hu => by simp [subtreesList] at hu
end

mutual
theorem send_emits : ∀ (v : OpVertex) (c : List String),
    ∀ x ∈ (send v c).1, ∃ u ∈ subtrees v, u.dgst = x
  | .mk o d ins, c, x, hx => by
    by_cases hd : d ∈ (sendList ins c).2
    · rw [show (send (.mk o d ins) c).1 = (sendList ins c).1 by simp [send, hd]] at hx
      obtain ⟨u, hu, he⟩ := sendList_emits ins c x hx
      exact ⟨u, by simp only [subtrees, List.mem_cons]; right; exact hu, he⟩
    · rw [show (send (.mk o d ins) c).1 = (sendList ins c).1 ++ [d] by
        simp [send, hd]] at hx
      rcases List.mem_append.mp hx with h1 | h2
      · obtain ⟨u, hu, he⟩ := sendList_emits ins c x h1
        exact ⟨u, by simp only [subtrees, List.mem_cons]; right; exact hu, he⟩
      · rw [List.mem_singleton] at h2
        exact ⟨.mk o d ins, self_mem_subtrees _, by rw [h2]; rfl⟩
theorem sendList_emits : ∀ (vs : List OpVertex) (c : List String),
    ∀ x ∈ (sendList vs c).1, ∃ u ∈ subtreesList vs, u.dgst = x
  | v :: vs, c, x, hx => by
    rw [show (sendList (v :: vs) c).1 =
        (send v c).1 ++ (sendList vs (send v c).2).1 by simp [sendList]] at hx
    simp only [subtreesList, List.mem_append]
    rcases List.mem_append.mp hx with h1 | h2
    · obtain ⟨u, hu, he⟩ := send_emits v c x h1
      exact ⟨u, Or.inl hu, he⟩
    · obtain ⟨u, hu, he⟩ := sendList_emits vs (send v c).2 x h2
      exact ⟨u, Or.inr hu, he⟩
  | [], c, x, hx => by simp [sendList] at hx
end

theorem snoc_eq_append_cons {α : Type _} (a b : α) :
    ∀ (e1 l1 l2 : List α), e1 ++ [a] = l1 ++ b :: l2 →
      (l1 = e1 ∧ b = a ∧ l2 = []) ∨ ∃ l2a, e1 = l1 ++ b :: l2a := by
  intro e1
  induction e1 with
  | nil =>
    intro l1 l2 h
    simp only [List.nil_append] at h
    cases l1 with
    | nil =>
      simp only [List.nil_append] at h
      rw [List.cons.injEq] at h
      left
      exact ⟨rfl, h.1.symm, h.2.symm⟩
    | cons x l1t =>
      rw [List.cons_append, List.cons.injEq] at h
      rcases h with ⟨_, h2⟩
      cases l1t <;> simp at h2
  | cons y e1t ih =>
    intro l1 l2 h
    cases l1 with
    | nil =>
      simp only [List.nil_append, List.cons_append, List.cons.injEq] at h
      right
      exact ⟨e1t, by rw [List.nil_append, h.1]⟩
    | cons x l1t =>
      simp only [List.cons_append, List.cons.injEq] at h
      rcases h with ⟨rfl, h2⟩
      rcases ih l1t l2 h2 with ⟨hl, hb, hnil⟩ | ⟨l2a, he⟩
      · left
        exact ⟨by rw [hl], hb, hnil⟩
      · right
        exact ⟨l2a, by rw [List.cons_append, he]⟩

theorem append_eq_append_cons {α : Type _} (b : α) :
    ∀ (e1 e2 l1 l2 : List α), e1 ++ e2 = l1 ++ b :: l2 →
      (∃ l2a, e1 = l1 ++ b :: l2a) ∨
      (∃ l1a, l1 = e1 ++ l1a ∧ e2 = l1a ++ b :: l2) := by
  intro e1
  induction e1 with
  | nil =>
    intro e2 l1 l2 h
    right
    exact ⟨l1, by simp, by simpa using h⟩
  | cons y e1t ih =>
    intro e2 l1 l2 h
    cases l1 with
    | nil =>
      simp only [List.cons_append, List.nil_append, List.cons.injEq] at h
      left
      exact ⟨e1t, by rw [List.nil_append, h.1]⟩
    | cons x l1t =>
      simp only [List.cons_append, List.cons.injEq] at h
      rcases h with ⟨rfl, h2⟩
      rcases ih e2 l1t l2 h2 with ⟨l2a, he⟩ | ⟨l1a, hl, he⟩
      · left
        exact ⟨l2a, by rw [List.cons_append, he]⟩
      · right
        exact ⟨l1a, by rw [List.cons_append, hl], he⟩

/-- A digest set closed under the input edges of the DAG rooted at v0:
whenever it holds the digest of a vertex of the DAG it also holds the
digests of all that vertex inputs. -/
def ClosedUnderInputs (v0 : OpVertex) (S : List String) : Prop :=
  ∀ u ∈ subtrees v0, u.dgst ∈ S → ∀ w ∈ u.inputs, w.dgst ∈ S

mutual
theorem send_closed : ∀ (v0 : OpVertex), Consistent v0 →
    ∀ (v : OpVertex), v ∈ subtrees v0 → ∀ (c : List String),
      ClosedUnderInputs v0 c →
      ClosedUnderInputs v0 (send v c).2 ∧
      (∀ l1 x l2, (send v c).1 = l1 ++ x :: l2 →
        ∀ u ∈ subtrees v0, u.dgst = x → ∀ w ∈ u.inputs,
          w.dgst ∈ c ∨ w.dgst ∈ l1)
  | v0, hcons, .mk o d ins, hv, c, hc => by
    have hins : ∀ w ∈ ins, w ∈ subtrees v0 := fun w hw =>
      subtrees_trans v0 (.mk o d ins) w hv
        (inputs_mem_subtrees (.mk o d ins) w hw)
    obtain ⟨hcl1, hgood1⟩ := sendList_closed v0 hcons ins hins c hc
    have hcache := sendList_cache_eq ins c
    have hinc : ∀ w ∈ ins, w.dgst ∈ (sendList ins c).2 :=
      fun w hw => sendList_mem_cache ins c w hw
    by_cases hd : d ∈ (sendList ins c).2
    · have hs1 : (send (.mk o d ins) c).1 = (sendList ins c).1 := by
        simp [send, hd]
      have hs2 : (send (.mk o d ins) c).2 = (sendList ins c).2 := by
        simp [send, hd]
      constructor
      · rw [hs2]; exact hcl1
      · intro l1 x l2 heq u hu hux w hw
        rw [hs1] at heq
        exact hgood1 l1 x l2 heq u hu hux w hw
    · have hs1 : (send (.mk o d ins) c).1 = (sendList ins c).1 ++ [d] := by
        simp [send, hd]
      have hs2 : (send (.mk o d ins) c).2 = (sendList ins c).2 ++ [d] := by
        simp [send, hd]
      constructor
      · intro u hu hmem w hw
        rw [hs2] at hmem ⊢
        rcases List.mem_append.mp hmem with h1 | h2
        · exact List.mem_append_left _ (hcl1 u hu h1 w hw)
        · rw [List.mem_singleton] at h2
          have hroot : u = .mk o d ins := hcons u hu _ hv (by rw [h2]; rfl)
          have hwins : w ∈ ins := by rw [hroot] at hw; exact hw
          exact List.mem_append_left _ (hinc w hwins)
      · intro l1 x l2 heq u hu hux w hw
        rw [hs1] at heq
        rcases snoc_eq_append_cons d x (sendList ins c).1 l1 l2 heq with
          ⟨hl1, hxd, _⟩ | ⟨l2a, he⟩
        · have hroot : u = .mk o d ins := hcons u hu _ hv (by rw [hux, hxd]; rfl)
          have hwins : w ∈ ins := by rw [hroot] at hw; exact hw
          have := hinc w hwins
          rw [hcache] at this
          rcases List.mem_append.mp this with h1 | h2
          · exact Or.inl h1
          · exact Or.inr (by rw [hl1]; exact h2)
        · exact hgood1 l1 x l2a he u hu hux w hw
theorem sendList_closed : ∀ (v0 : OpVertex), Consistent v0 →
    ∀ (vs : List OpVertex), (∀ v ∈ vs, v ∈ subtrees v0) → ∀ (c : List String),
      ClosedUnderInputs v0 c →
      ClosedUnderInputs v0 (sendList vs c).2 ∧
      (∀ l1 x l2, (sendList vs c).1 = l1 ++ x :: l2 →
        ∀ u ∈ subtrees v0, u.dgst = x → ∀ w ∈ u.inputs,
          w.dgst ∈ c ∨ w.dgst ∈ l1)
  | v0, hcons, [], hvs, c, hc => by
    constructor
    · simpa [sendList] using hc
    · intro l1 x l2 heq
      rw [show (sendList ([] : List OpVertex) c).1 = [] from rfl] at heq
      exact absurd heq.symm (by simp)
  | v0, hcons, v :: vs, hvs, c, hc => by
    have hv : v ∈ subtrees v0 := hvs v (List.mem_cons_self v vs)
    obtain ⟨hcl1, hgood1⟩ := send_closed v0 hcons v hv c hc
    obtain ⟨hcl2, hgood2⟩ := sendList_closed v0 hcons vs
      (fun w hw => hvs w (List.mem_cons_of_mem v hw)) (send v c).2 hcl1
    have hcache1 := send_cache_eq v c
    have hs1 : (sendList (v :: vs) c).1 =
        (send v c).1 ++ (sendList vs (send v c).2).1 := by
      simp [sendList]
    have hs2 : (sendList (v :: vs) c).2 = (sendList vs (send v c).2).2 := by
      simp [sendList]
    constructor
    · rw [hs2]; exact hcl2
    · intro l1 x l2 heq u hu hux w hw
      rw [hs1] at heq
      rcases append_eq_append_cons x (send v c).1 (sendList vs (send v c).2).1
          l1 l2 heq with ⟨l2a, he1⟩ | ⟨l1a, hl1, he2⟩
      · exact hgood1 l1 x l2a he1 u hu hux w hw
      · rcases hgood2 l1a x l2 he2 u hu hux w hw with hin | hin
        · rw [hcache1] at hin
          rcases List.mem_append.mp hin with h1 | h2
          · exact Or.inl h1
          · exact Or.inr (by rw [hl1]; exact List.mem_append_left _ h2)
        · exact Or.inr (by rw [hl1]; exact List.mem_append_right _ hin)
end

/-- Claim C6: for every vertex DAG whose vertices are consistently keyed
by digest (as the loader guarantees by materializing one vertex per
digest), the initial status walk emits exactly one message per unique
vertex digest — the emitted digest sequence has no duplicates and
consists of precisely the digests of the DAG — and emits in post-order:
wherever a vertex digest appears in the emission, the digests of all of
that vertex inputs appear strictly earlier. -/
theorem c6_walk_postorder (v : OpVertex) (hcons : Consistent v) :
    (walk v).Nodup ∧
    (∀ x, x ∈ walk v ↔ ∃ u ∈ subtrees v, u.dgst = x) ∧
    (∀ l1 x l2, walk v = l1 ++ x :: l2 →
      ∀ u ∈ subtrees v, u.dgst = x → ∀ w ∈ u.inputs, w.dgst ∈ l1) := by
  have hwc : (send v []).2 = walk v := by
    rw [send_cache_eq]
    simp [walk]
  refine ⟨?_, ?_, ?_⟩
  · rw [← hwc]
    exact send_cache_nodup v [] List.nodup_nil
  · intro x
    constructor
    · exact send_emits v [] x
    · rintro ⟨u, hu, rfl⟩
      rw [← hwc]
      exact send_covers v [] u hu
  · intro l1 x l2 heq u hu hux w hw
    have hclosed : ClosedUnderInputs v ([] : List String) :=
      fun u2 _ hmem => absurd hmem (List.not_mem_nil _)
    have hgood := (send_closed v hcons v (self_mem_subtrees v) [] hclosed).2
    rcases hgood l1 x l2 heq u hu hux w hw with hin | hin
    · exact absurd hin (List.not_mem_nil _)
    · exact hin

/-- Witness for C6 at a concrete diamond DAG (source a shared by execs b
and c, joined by exec d): the initial walk emits each digest once, in
post-order a, b, c, d. -/
theorem c6_walk_postorder_witness :
    (walk (.mk (some (.exec ["run", "d"] [])) "d"
      [.mk (some (.exec ["run", "b"] [])) "b"
        [.mk (some (.source "docker-image://x")) "a" []],
       .mk (some (.exec ["run", "c"] [])) "c"
        [.mk (some (.source "docker-image://x")) "a" []]])).Nodup :=
  (c6_walk_postorder _ (by decide)).1
